import Mathlib

/-!
# Verification of the eolymp/go-agent orchestration core

Shallow embedding of the agent-orchestration library (package `agent`):
the message model (message_assistant.go, message_user.go, message_system.go),
the Memory contract (memory.go) with the ForgetfulMemory retention policy,
the approval aggregation (`Agent.approve`), the tool-dispatch batch
(`Agent.call`), the iteration loop (`Agent.Run`), and the configuration
clone (`Agent.clone`) from agent.go.

Go machine details modelled as follows:
* `float32` configuration values (temperature, topP) are carried by `Run`
  but never computed with; they are modelled as `Rat`.
* `int64`/`int32`/`int` are modelled as `Int` (no arithmetic overflows occur:
  the core only copies and compares these values).
* maps (`map[string]any`, `map[string]string`) keep their Go nil/non-nil
  distinction via `Option` around association lists.
* interface references that `clone` copies verbatim but whose behaviour is
  injected elsewhere (the ChatCompleter, the Memory backend) are opaque `Nat`
  identifiers; the completer's behaviour is supplied to `Agent.run` as a
  response script and the memory's contents as an explicit message list
  (the Memory contract of memory.go: `List` reflects the `Append` history
  in call order).
* goroutine scheduling inside `Agent.call` writes each result into its own
  slot of the `results` slice, so slot contents are independent of
  interleaving; the embedding computes them slot by slot.  `errgroup.Wait`
  returns a goroutine error iff some handler returned a handoff; which of
  several concurrent handoffs is returned is scheduling-dependent, and the
  embedding deterministically picks the first in block order (the theorems
  below depend only on the existence of a handoff, not on the choice).
-/

namespace GoAgent

/-- ToolCall from message_assistant.go: id, name, raw JSON argument text. -/
structure ToolCall where
  id : String
  name : String
  arguments : String
deriving DecidableEq, Repr

/-- ToolCallApproval from message_assistant.go. -/
inductive ToolCallApproval
  | undecided
  | approved
  | rejected
deriving DecidableEq, Repr

/-- MessageBlockType constants from the assistant message model. -/
inductive MessageBlockType
  | text
  | toolCall
  | reasoning
  | signature
  | serverToolCall
  | toolResult
deriving DecidableEq, Repr

/-- The payload of a ToolResult message (`Result any` is modelled by its
serialized form, a `String`). -/
structure ToolResultData where
  callID : String
  result : String
deriving DecidableEq, Repr

/-- MessageBlock of an assistant message: a tagged record with a type field
and optional payloads, as in the Go source. -/
structure MessageBlock where
  type : MessageBlockType
  text : String := ""
  signature : String := ""
  toolCall : Option ToolCall := none
  toolResult : Option ToolResultData := none
deriving DecidableEq, Repr

/-- Message: the closed union of conversation entries
(SystemMessage, UserMessage, AssistantMessage, ToolResult, ToolError).
`ToolError` carries the error text (agent.go stores `err.Error()`). -/
inductive Message
  | system (content : String)
  | user (content : String)
  | assistant (content : List MessageBlock)
  | toolResult (callID : String) (result : String)
  | toolError (callID : String) (errText : String)
deriving DecidableEq, Repr

/-- A tool handler's outcome: Go handlers return `(any, error)`; a non-nil
error either wraps a `Handoff{Agent}` (modelled by an opaque agent
identifier) or is an ordinary error rendered by its text. -/
inductive ToolOutcome
  | ok (result : String)
  | fail (message : String)
  | handoff (target : Nat)
deriving DecidableEq, Repr

/-- Tool descriptor (schemas are external `jsonschema` values, modelled
opaquely by their serialized text). -/
structure Tool where
  name : String
  description : String
  inputSchema : Option String := none
  outputSchema : Option String := none
deriving DecidableEq, Repr

/-- Toolset: name-indexed registry with `Call` and `List`
(tool set source file). -/
structure Toolset where
  call : String → String → ToolOutcome
  list : List Tool

/-- NewStaticToolset with no tools registered: `Call` fails with
`unknown tool %q` and `List` is empty. -/
def NewStaticToolset : Toolset :=
  { call := fun n _ => .fail ("unknown tool \"" ++ n ++ "\"")
    list := [] }

/-- Skill inside a Container (copied verbatim by `clone`; its fields are not
touched by the core and are modelled opaquely). -/
structure Skill where
  id : String
deriving DecidableEq, Repr

/-- Container configuration, as copied by `clone` (ID plus a skill slice). -/
structure Container where
  id : String
  skills : Option (List Skill) := none
deriving DecidableEq, Repr

/-- Reasoning configuration, as copied by `clone` (Enabled, Budget, Effort). -/
structure Reasoning where
  enabled : Option Bool := none
  budget : Option Int := none
  effort : Option String := none
deriving DecidableEq, Repr

/-- FinishReason from completer.go. -/
inductive FinishReason
  | stop
  | length
  | toolCalls
  | contentFilter
deriving DecidableEq, Repr

/-- ToolChoice from completer.go. -/
inductive ToolChoice
  | auto
  | required
  | none
deriving DecidableEq, Repr

/-! ## The Agent configuration and approval aggregation -/

/-- The Agent configuration record from agent.go, except the `dynamics`
field which lives in `Agent` below (an `OptionLoader` takes the agent
configuration as input, so keeping it inside this record would make the
type self-referential in a negative position; loaders that modify the
loader list itself are outside the model).  Field meanings and defaults
follow the Go struct:

* `completer` and `memory` are opaque references (see the module comment);
* `values` is the template-substitution map (`map[string]any`, modelled as
  an association list of rendered strings), `none` for Go's nil map;
* `temperature`/`topP` are float32 pointers modelled as `Option Rat`;
* `maxTokens` (int64) and `topK` (int32) as `Option Int`. -/
structure AgentConf where
  completer : Nat
  name : String
  description : String := ""
  tools : Toolset
  memory : Nat
  messages : List Message := []
  values : Option (List (String × String)) := none
  model : String := ""
  models : Option (List (String × String)) := none
  temperature : Option Rat := none
  maxTokens : Option Int := none
  topP : Option Rat := none
  topK : Option Int := none
  useCache : Option Bool := none
  iterations : Int := 0
  parallelism : Int := 0
  betas : Option (List String) := none
  container : Option Container := none
  reasoning : Option Reasoning := none
  approver : List (ToolCall → ToolCallApproval) := []
  finalizer : List (List MessageBlock → List MessageBlock × Option String) := []

/-- OptionLoader (option.go): `func(ctx, *Agent) error`, allowed to mutate
the cloned configuration before the loop starts. -/
def OptionLoader : Type := AgentConf → Except String AgentConf

/-- The full Agent value: configuration plus the dynamic option loaders. -/
structure Agent where
  conf : AgentConf
  dynamics : List OptionLoader := []

/-- The loop body of `Agent.approve` (agent.go): iterate the approvers in
order with an `approved` flag; any `Rejected` vote returns immediately,
an `Approved` vote sets the flag, `Undecided` is skipped; after the loop
the flag decides between `Approved` and `Undecided`. -/
def approveLoop (call : ToolCall) :
    List (ToolCall → ToolCallApproval) → Bool → ToolCallApproval
  | [], flag => if flag then .approved else .undecided
  | p :: ps, flag =>
    match p call with
    | .rejected => .rejected
    | .approved => approveLoop call ps true
    | .undecided => approveLoop call ps flag

/-- `Agent.approve` from agent.go. -/
def AgentConf.approve (c : AgentConf) (call : ToolCall) : ToolCallApproval :=
  approveLoop call c.approver false


/-! ## Tool dispatch (`Agent.call`, agent.go) -/

/-- The tool call carried by a content block, when the block is a tool-call
block (`block.Type == MessageBlockTypeToolCall`); `Agent.call` skips every
other block.  (A tool-call block whose `ToolCall` pointer is nil would make
the Go code dereference nil; such blocks are never produced by the
completer adapters and are skipped here.) -/
def blockCall (b : MessageBlock) : Option ToolCall :=
  if b.type = .toolCall then b.toolCall else none

/-- The tool calls of an assistant message's content, in block order. -/
def toolCallsOf (content : List MessageBlock) : List ToolCall :=
  content.filterMap blockCall

/-- First pass of `Agent.call`: the calls whose aggregate approval is
`Undecided`, collected in block order. -/
def undecidedOf (c : AgentConf) (content : List MessageBlock) : List ToolCall :=
  content.filterMap fun b =>
    match blockCall b with
    | some call => if c.approve call = .undecided then some call else none
    | none => none

/-- First pass of `Agent.call`: the `approved` id set
(`approved[block.ToolCall.ID] = true`), as the list of ids of calls whose
aggregate approval is `Approved`, in block order. -/
def approvedIDs (c : AgentConf) (content : List MessageBlock) : List String :=
  content.filterMap fun b =>
    match blockCall b with
    | some call => if c.approve call = .approved then some call.id else none
    | none => none

/-- Argument normalization in `Agent.call`: empty or literal `null`
arguments become the empty JSON object. -/
def normArgs (args : String) : String :=
  if args = "" ∨ args = "null" then "\x7b\x7d" else args

/-- One slot of the `results` slice: the body of the goroutine spawned for
one tool-call block.  An approved call runs its handler on the normalized
arguments; a handler error that wraps a `Handoff` becomes the goroutine's
error (`Except.error target`), any other handler error becomes a
`ToolError` for the call's id; a call that is not in the approved id set is
not run and resolves to the rejection `ToolError`. -/
def execCall (ts : Toolset) (ap : List String) (call : ToolCall) :
    Except Nat Message :=
  if ap.contains call.id then
    match ts.call call.name (normArgs call.arguments) with
    | .ok v => .ok (.toolResult call.id v)
    | .fail e => .ok (.toolError call.id e)
    | .handoff t => .error t
  else
    .ok (.toolError call.id "tool call has been rejected by the user")

/-- The `results` slice after all goroutines finish: one slot per content
block, `none` for blocks that are not tool calls. -/
def slotsOf (ts : Toolset) (ap : List String) (content : List MessageBlock) :
    List (Option (Except Nat Message)) :=
  content.map fun b => (blockCall b).map (execCall ts ap)

/-- The error returned by `errgroup.Wait`: the handoff raised by some
goroutine, if any (deterministically the first in block order; see the
module comment on scheduling). -/
def firstHandoff (slots : List (Option (Except Nat Message))) : Option Nat :=
  slots.findSome? fun s =>
    match s with
    | some (.error t) => some t
    | _ => none

/-- The non-nil results among the slots, in slice (block) order: the write
loop of `Agent.call` appends exactly these to Memory. -/
def okSlots (slots : List (Option (Except Nat Message))) : List Message :=
  slots.filterMap fun s =>
    match s with
    | some (.ok m) => some m
    | _ => none

/-- The outcome of `Agent.call`. -/
inductive CallOutcome
  | ok
  | approvalRequest (calls : List ToolCall)
  | handoff (target : Nat)
deriving DecidableEq, Repr

/-- `Agent.call` from agent.go, returning its outcome together with the
messages it appends to Memory (in append order): an undecided call defers
the whole batch with a `ToolApprovalRequest` before anything runs; a
handoff returned by `errgroup.Wait` is returned before anything is
appended; otherwise the non-nil slots are appended in slice (block)
order. -/
def AgentConf.call (c : AgentConf) (content : List MessageBlock) :
    CallOutcome × List Message :=
  if undecidedOf c content ≠ [] then (.approvalRequest (undecidedOf c content), [])
  else
    match firstHandoff (slotsOf c.tools (approvedIDs c content) content) with
    | some t => (.handoff t, [])
    | none => (.ok, okSlots (slotsOf c.tools (approvedIDs c content) content))

/-- The call id recorded on a tool result or tool error message. -/
def callIdOf : Message → Option String
  | .toolResult callID _ => some callID
  | .toolError callID _ => some callID
  | _ => none

/-- A message is a tool execution record (ToolResult or ToolError). -/
def isToolRecord : Message → Bool
  | .toolResult _ _ => true
  | .toolError _ _ => true
  | _ => false


/-! ## Starter-message rendering and the completion request -/

/-- The wall-clock renderings `MessageRender` computes from `time.Now()`
(formats DateOnly, TimeOnly, RFC3339).  Reading the clock is I/O, so the
embedding takes these three strings as an explicit input; no claim depends
on their values. -/
structure Clock where
  date : String
  time : String
  datetime : String
deriving DecidableEq, Repr

/-- Splits a character stream at the first closing `\x7d\x7d` of a mustache
tag: returns the tag's key and the remainder after the closing braces. -/
def splitTag : List Char → Option (List Char × List Char)
  | [] => none
  | '\x7d' :: '\x7d' :: rest => some ([], rest)
  | c :: rest => (splitTag rest).map (fun p => (c :: p.1, p.2))

/-- The variable-tag substitution of `mustache.Render` (the external
hoisie/mustache dependency of `MessageRender`): each `\x7b\x7bkey\x7d\x7d`
tag is replaced by the value bound to `key`, and a key with no binding
renders as the empty string.  Sections, partials, triple-brace tags,
HTML escaping and in-tag whitespace trimming are not modelled — no
template in this development uses them.  The fuel argument (instantiated
with the input length, which every recursive call strictly shrinks) only
makes the recursion structural. -/
def mustacheChars (binds : List (String × String)) : Nat → List Char → List Char
  | 0, s => s
  | _, [] => []
  | fuel + 1, c :: cs =>
    match c, cs with
    | '\x7b', '\x7b' :: rest =>
      match splitTag rest with
      | some (key, rem) =>
        ((binds.lookup (String.mk key)).getD "").data ++ mustacheChars binds fuel rem
      | none => c :: mustacheChars binds fuel cs
    | _, _ => c :: mustacheChars binds fuel cs

/-- `MessageRender` (the renderer source file): a nil values map is replaced
by an empty one; the `date`, `time` and `datetime` keys are then assigned
from the current wall clock — overwriting any caller-supplied bindings for
those keys, which is why the clock bindings shadow `values` in the lookup
list — and the template is rendered by `mustache.Render` (modelled by
`mustacheChars`). -/
def MessageRender (now : Clock) (t : String)
    (values : Option (List (String × String))) : String :=
  String.mk (mustacheChars
    ([("date", now.date), ("time", now.time), ("datetime", now.datetime)]
      ++ values.getD [])
    t.data.length t.data)

/-- The free dispatcher `render(m, values)` that `Run` applies to starter
messages (agent.go line 93) is not among the provided sources; it is
modelled as dispatch to the per-message render methods that are:
`UserMessage.render`/`ToolResult.render`/`ToolError.render`
(message_user.go — user content through `MessageRender`, tool records
unchanged) and the system/assistant cases of the renderer sources
(content, respectively each block's text, through `MessageRender`). -/
def renderMessage (now : Clock) (m : Message)
    (values : Option (List (String × String))) : Message :=
  match m with
  | .system c => .system (MessageRender now c values)
  | .user c => .user (MessageRender now c values)
  | .assistant bs =>
    .assistant (bs.map fun b => { b with text := MessageRender now b.text values })
  | m => m

/-- CompletionRequest (completer.go), restricted to the fields the core
fills in `Run`: the `StreamCallback` (set when the Memory is a `Streamer`)
is I/O and not modelled. -/
structure CompletionRequest where
  model : String
  messages : List Message
  tools : List Tool
  toolChoice : ToolChoice
  parallelToolCalls : Bool
  temperature : Option Rat
  maxTokens : Option Int
  topP : Option Rat
  topK : Option Int
  useCache : Option Bool
  betas : Option (List String)
  container : Option Container
  reasoning : Option Reasoning
deriving DecidableEq, Repr

/-- CompletionResponse (completer.go), restricted to the fields the core
reads: the content blocks and the finish reason (usage counters and the
echoed model id only feed tracing metrics). -/
structure CompletionResponse where
  content : List MessageBlock
  finishReason : FinishReason
deriving DecidableEq, Repr

/-- The request built by one iteration of `Run` (agent.go):
`ParallelToolCalls` is `parallelism != 1 && parallelism != 0`, the tool
choice is always `auto`, and the sampling parameters come from the cloned
configuration. -/
def mkRequest (c : AgentConf) (model : String) (tools : List Tool)
    (msgs : List Message) : CompletionRequest :=
  { model := model
    messages := msgs
    tools := tools
    toolChoice := .auto
    parallelToolCalls := decide (c.parallelism ≠ 1 ∧ c.parallelism ≠ 0)
    temperature := c.temperature
    maxTokens := c.maxTokens
    topP := c.topP
    topK := c.topK
    useCache := c.useCache
    betas := c.betas
    container := c.container
    reasoning := c.reasoning }

/-- The model-name remapping applied by `Agent.complete` before the request
reaches the completer (`if m, ok := a.models[req.Model]; ok`). -/
def remapModel (models : Option (List (String × String))) (req : CompletionRequest) :
    CompletionRequest :=
  match models with
  | none => req
  | some ms =>
    match ms.lookup req.model with
    | some m => { req with model := m }
    | none => req

/-! ## The iteration loop of `Run` -/

/-- Running the finalizer chain over the draft reply (a finalizer takes the
reply by pointer and may both mutate it and fail): the first failure stops
the chain and is returned together with the reply as mutated so far. -/
def runFinalizers (fs : List (List MessageBlock → List MessageBlock × Option String))
    (reply : List MessageBlock) : List MessageBlock × Option String :=
  match fs with
  | [] => (reply, none)
  | f :: rest =>
    match f reply with
    | (r, some e) => (r, some e)
    | (r, none) => runFinalizers rest r

/-- The error values `Run` can return (`err != nil`): a failed option
loader, a completer failure, a pending `ToolApprovalRequest`, or a
`Handoff` raised by a tool handler.  (Memory `Append` failures cannot occur
in the list-backed memory model.) -/
inductive RunError
  | optionLoadFailed (message : String)
  | completerFailed
  | toolApproval (calls : List ToolCall)
  | handoff (target : Nat)
deriving DecidableEq, Repr

/-- Observable result of a `Run`: the returned reply and error, the final
memory contents (initial contents plus the appends, per the Memory
contract), and the trace of requests issued to the completer. -/
structure RunTrace where
  reply : List MessageBlock
  err : Option RunError
  memory : List Message
  requests : List CompletionRequest
deriving DecidableEq, Repr

/-- The bounded iteration loop of `Run` (agent.go), on the configuration
already cloned and loaded.  The completer is an oracle script consumed one
entry per invocation (`none`, like an exhausted script, is a completer
error).  Each successful completion appends exactly one AssistantMessage;
a tool-call finish reason dispatches the batch through `AgentConf.call`
and continues; any other finish reason runs the finalizers, appending the
`ERROR: <detail>` user message and retrying on failure, and otherwise
returning the reply with no error.  Exhausting the iteration budget
returns the current reply with no error. -/
def runLoop (c : AgentConf) (system : List Message) (tools : List Tool)
    (model : String) :
    Nat → List (Option CompletionResponse) → List Message →
      List CompletionRequest → List MessageBlock → RunTrace
  | 0, _, mem, reqs, reply => ⟨reply, none, mem, reqs⟩
  | fuel + 1, script, mem, reqs, reply =>
    let req := remapModel c.models (mkRequest c model tools (system ++ mem))
    match script with
    | [] => ⟨reply, some .completerFailed, mem, reqs ++ [req]⟩
    | none :: _ => ⟨reply, some .completerFailed, mem, reqs ++ [req]⟩
    | some resp :: rest =>
      match resp.finishReason with
      | .toolCalls =>
        match c.call resp.content with
        | (.ok, appends) =>
          runLoop c system tools model fuel rest
            (mem ++ [Message.assistant resp.content] ++ appends)
            (reqs ++ [req]) resp.content
        | (.approvalRequest u, _) =>
          ⟨resp.content, some (.toolApproval u),
            mem ++ [Message.assistant resp.content], reqs ++ [req]⟩
        | (.handoff t, _) =>
          ⟨resp.content, some (.handoff t),
            mem ++ [Message.assistant resp.content], reqs ++ [req]⟩
      | _ =>
        match runFinalizers c.finalizer resp.content with
        | (r, none) =>
          ⟨r, none, mem ++ [Message.assistant resp.content], reqs ++ [req]⟩
        | (r, some e) =>
          runLoop c system tools model fuel rest
            (mem ++ [Message.assistant resp.content, Message.user ("ERROR: " ++ e)])
            (reqs ++ [req]) r

/-! ## `Run` itself, `clone`, and `New` -/

/-- Sequential application of the dynamic option loaders; the first failure
aborts (`failed to load options`). -/
def applyLoaders : List OptionLoader → AgentConf → Except String AgentConf
  | [], c => .ok c
  | l :: ls, c =>
    match l c with
    | .error e => .error e
    | .ok c2 => applyLoaders ls c2

/-- `LastMessageAsAssistant` (memory.go): the content of the last memory
entry when it is an AssistantMessage. -/
def lastAssistant (msgs : List Message) : Option (List MessageBlock) :=
  match msgs.getLast? with
  | some (.assistant content) => some content
  | _ => none

/-- `Agent.clone` (agent.go): the struct literal copies completer, name,
description, tools, memory, model, iterations and parallelism; the
conditional blocks copy messages, models, betas, container, reasoning,
dynamics, approver and finalizer (Go value copies of slices/maps, equal to
the originals).  The remaining fields — `values`, `temperature`,
`maxTokens`, `topP`, `topK`, `useCache` — do not appear in the function
and are left at their zero value (nil). -/
def Agent.clone (a : Agent) : Agent :=
  { conf :=
      { completer := a.conf.completer
        name := a.conf.name
        description := a.conf.description
        tools := a.conf.tools
        memory := a.conf.memory
        model := a.conf.model
        iterations := a.conf.iterations
        parallelism := a.conf.parallelism
        messages := a.conf.messages
        models := a.conf.models
        betas := a.conf.betas
        container := a.conf.container
        reasoning := a.conf.reasoning
        approver := a.conf.approver
        finalizer := a.conf.finalizer
        values := none
        temperature := none
        maxTokens := none
        topP := none
        topK := none
        useCache := none }
    dynamics := a.dynamics }

/-- `Agent.Run` (agent.go): clone the agent, apply the per-call options,
resolve the dynamic option loaders, render the starter messages with the
cloned template values, re-dispatch the tool calls of a trailing
AssistantMessage left in memory by an interrupted run, then enter the
iteration loop with the iteration budget.  `mem` is the current contents
of the injected memory, `script` the completer oracle, and `now` the
wall-clock renderings `MessageRender` reads via `time.Now()`. -/
def Agent.run (a : Agent) (now : Clock) (opts : List (Agent → Agent))
    (script : List (Option CompletionResponse)) (mem : List Message) : RunTrace :=
  let c := opts.foldl (fun ag o => o ag) a.clone
  match applyLoaders c.dynamics c.conf with
  | .error e => ⟨[], some (.optionLoadFailed e), mem, []⟩
  | .ok conf =>
    let tools := conf.tools.list
    let model := conf.model
    let system := conf.messages.map (fun m => renderMessage now m conf.values)
    match lastAssistant mem with
    | some content =>
      match conf.call content with
      | (.ok, appends) =>
        runLoop conf system tools model conf.iterations.toNat script
          (mem ++ appends) [] []
      | (.approvalRequest u, _) => ⟨content, some (.toolApproval u), mem, []⟩
      | (.handoff t, _) => ⟨content, some (.handoff t), mem, []⟩
    | none =>
      runLoop conf system tools model conf.iterations.toNat script mem [] []

/-- `New` (agent.go): the defaults — iterations 120, parallelism 5, an
empty static toolset — with the options applied in order.  (The completer
and memory references are opaque; the nil-completer panic is outside the
model.) -/
def New (name : String) (opts : List (Agent → Agent)) : Agent :=
  opts.foldl (fun a o => o a)
    { conf :=
        { completer := 0
          name := name
          tools := NewStaticToolset
          memory := 0
          iterations := 120
          parallelism := 5 } }

/-- `WithToolParallelism` (option.go): sets the parallelism bound with no
validation. -/
def withToolParallelism (limit : Int) : Agent → Agent :=
  fun a => { a with conf := { a.conf with parallelism := limit } }

/-- `WithTemperature` (option.go). -/
def withTemperature (t : Rat) : Agent → Agent :=
  fun a => { a with conf := { a.conf with temperature := some t } }

/-! ## ForgetfulMemory -/

/-- Whether a message is a UserMessage (the Go type switch
`msg.(UserMessage)`). -/
def isUserMessage : Message → Bool
  | .user _ => true
  | _ => false

/-- `ForgetfulMemory.Append`: a new UserMessage resets the stored log
before the message itself is stored. -/
def forgetfulAppend (stored : List Message) (msg : Message) : List Message :=
  if isUserMessage msg then [msg] else stored ++ [msg]

/-- The stored log after a sequence of `Append` calls starting from the
given contents. -/
def forgetfulAppendAll (stored : List Message) (msgs : List Message) : List Message :=
  msgs.foldl forgetfulAppend stored

/-- Specification-side definition for C9 (following the claim's words, to
be compared with the fold over `forgetfulAppend`): the prefix of a message
list up to and including its first UserMessage. -/
def takeToFirstUser : List Message → List Message
  | [] => []
  | m :: rest => if isUserMessage m then [m] else m :: takeToFirstUser rest

/-- Specification-side definition for C9: the messages appended since (and
including) the most recent UserMessage — all of them when no UserMessage
was appended. -/
def sinceLastUser (msgs : List Message) : List Message :=
  (takeToFirstUser msgs.reverse).reverse

/-! ## The errgroup scheduling model (parallelism bound) -/

/-- Splitting a task list into waves of at most `n ≥ 1` tasks. -/
def chunked (n : Nat) : List ToolCall → List (List ToolCall)
  | [] => []
  | x :: xs => (x :: xs.take (n - 1)) :: chunked n (xs.drop (n - 1))
termination_by l => l.length
decreasing_by
  simp only [List.length_cons, List.length_drop]
  omega

/-- Models the errgroup semantics behind `eg.SetLimit(a.parallelism)` and
one `eg.Go` per tool-call block (golang.org/x/sync/errgroup, an external
dependency of agent.go): `SetLimit(n)` with `n < 0` removes the limit, so
all tasks may run in one wave; with `n ≥ 1` at most `n` goroutines run at
once; with `n = 0` no goroutine may ever start, so `Go` blocks forever and
a non-empty batch can never be scheduled (`none`). -/
def egWaves (limit : Int) (tasks : List ToolCall) :
    Option (List (List ToolCall)) :=
  if tasks = [] then some []
  else if limit < 0 then some [tasks]
  else if limit = 0 then none
  else some (chunked limit.toNat tasks)

/-- Number of AssistantMessages in a message list. -/
def countAssistant (msgs : List Message) : Nat :=
  (msgs.filter fun m =>
    match m with
    | .assistant _ => true
    | _ => false).length

/-! ## Concrete data used by the witnesses and counterexamples -/

/-- A text content block. -/
def textBlock (s : String) : MessageBlock := { type := .text, text := s }

/-- A tool-call content block. -/
def tcBlock (t : ToolCall) : MessageBlock := { type := .toolCall, toolCall := some t }

/-- A toolset for the concrete scenarios: `lookup` succeeds with "42",
`delegate` raises a handoff to the agent referenced as 1, anything else
fails. -/
def wTools : Toolset :=
  { call := fun n _ =>
      if n = "lookup" then .ok "42"
      else if n = "delegate" then .handoff 1
      else .fail "boom"
    list := [{ name := "lookup", description := "lookup" }] }

/-- An approver for the concrete scenarios: approves `lookup` and
`delegate`, rejects `bad`, and stays undecided on everything else. -/
def wApprover : ToolCall → ToolCallApproval := fun t =>
  if t.name = "lookup" ∨ t.name = "delegate" then .approved
  else if t.name = "bad" then .rejected
  else .undecided

def cLookup : ToolCall := { id := "c1", name := "lookup", arguments := "" }

def cBad : ToolCall := { id := "c2", name := "bad", arguments := "" }

def cPending : ToolCall := { id := "c3", name := "mystery", arguments := "" }

def cDelegate : ToolCall := { id := "c4", name := "delegate", arguments := "" }

/-- The agent configuration for the concrete scenarios. -/
def wConf : AgentConf :=
  { completer := 0
    name := "main"
    tools := wTools
    memory := 0
    model := "gpt"
    iterations := 120
    parallelism := 5
    approver := [wApprover] }

/-- A batch with one approved and one rejected call. -/
def wContentOk : List MessageBlock :=
  [textBlock "let me check", tcBlock cLookup, tcBlock cBad]

/-- A batch with one approved and one undecided call. -/
def wContentPending : List MessageBlock := [tcBlock cLookup, tcBlock cPending]

/-- A batch with one approved call and one call whose handler hands off. -/
def wContentHandoff : List MessageBlock := [tcBlock cLookup, tcBlock cDelegate]

/-- A finalizer that accepts the reply unchanged. -/
def fzOk : List MessageBlock → List MessageBlock × Option String :=
  fun r => (r, none)

/-- A finalizer that fails. -/
def fzFail : List MessageBlock → List MessageBlock × Option String :=
  fun r => (r, some "reply is not valid JSON")

/-- A finalizer that mutates the reply (used to observe short-circuiting:
it must never run after a failure). -/
def fzMut : List MessageBlock → List MessageBlock × Option String :=
  fun r => (r ++ [textBlock "mutated"], none)

/-- `wConf` with the finalizer chain accept / fail / mutate. -/
def wFzConf : AgentConf := { wConf with finalizer := [fzOk, fzFail, fzMut] }

/-- The agent used for whole-`Run` scenarios. -/
def wAgent : Agent := { conf := wConf }

/-- A fixed wall clock for the concrete scenarios. -/
def wClock : Clock :=
  { date := "2026-10-11", time := "12:00:00", datetime := "2026-10-11T12:00:00Z" }

/-- The handoff target used for the C1 counterexample: same configuration
but named "specialist" and rejecting every tool call, so that a resumed
batch resolves to rejection errors instead of handing off again. -/
def wAgentB : Agent :=
  { conf :=
      { wConf with
        name := "specialist"
        approver := [fun _ => ToolCallApproval.rejected] } }

/-- Completer script for the C1 counterexample: a tool-call turn (the
`delegate` call, whose handler raises a handoff), then a plain text
turn. -/
def wScriptA : List (Option CompletionResponse) :=
  [some ⟨[tcBlock cDelegate], .toolCalls⟩,
   some ⟨[textBlock "handled by specialist"], .stop⟩]

/-- The agent used for the C6 scenario: every droppable configuration
field is set. -/
def wAgentC6 : Agent :=
  { conf :=
      { completer := 0
        name := "c6"
        tools := NewStaticToolset
        memory := 0
        messages := [Message.user "Hi \x7b\x7bname\x7d\x7d"]
        values := some [("name", "Bob")]
        model := "gpt"
        temperature := some 1
        maxTokens := some 256
        topP := some (9/10)
        topK := some 40
        useCache := some true
        iterations := 120
        parallelism := 5 } }

/-- A one-turn script answering with plain text. -/
def wScriptStop : List (Option CompletionResponse) :=
  [some ⟨[textBlock "4"], .stop⟩]

/-! ## Lemmas and theorems -/

lemma approveLoop_ne_rejected_of_forall (call : ToolCall)
    (aa : List (ToolCall → ToolCallApproval)) (flag : Bool)
    (h : ∀ p ∈ aa, p call ≠ .rejected) :
    approveLoop call aa flag =
      if flag ∨ ∃ p ∈ aa, p call = .approved then .approved else .undecided := by
  induction aa generalizing flag with
  | nil => simp [approveLoop]
  | cons p ps ih =>
    have hp : p call ≠ .rejected := h p (List.mem_cons_self p ps)
    have hps : ∀ q ∈ ps, q call ≠ .rejected := fun q hq => h q (List.mem_cons_of_mem p hq)
    cases hcall : p call with
    | rejected => exact absurd hcall hp
    | approved =>
      simp only [approveLoop, hcall]
      rw [ih true hps]
      simp [hcall]
    | undecided =>
      simp only [approveLoop, hcall]
      rw [ih flag hps]
      have hiff : (flag = true ∨ ∃ q ∈ ps, q call = ToolCallApproval.approved) ↔
          (flag = true ∨ ∃ q ∈ p :: ps, q call = ToolCallApproval.approved) := by
        constructor
        · rintro (hf | ⟨q, hq, hval⟩)
          · exact Or.inl hf
          · exact Or.inr ⟨q, List.mem_cons_of_mem p hq, hval⟩
        · rintro (hf | ⟨q, hq, hval⟩)
          · exact Or.inl hf
          · rcases List.mem_cons.mp hq with rfl | hq'
            · exact absurd hval (by simp [hcall])
            · exact Or.inr ⟨q, hq', hval⟩
      rw [if_congr hiff rfl rfl]

lemma approveLoop_rejected_of_mem (call : ToolCall)
    (aa : List (ToolCall → ToolCallApproval)) (flag : Bool)
    (h : ∃ p ∈ aa, p call = .rejected) :
    approveLoop call aa flag = .rejected := by
  induction aa generalizing flag with
  | nil => simp at h
  | cons p ps ih =>
    rcases h with ⟨q, hq, hval⟩
    rcases List.mem_cons.mp hq with rfl | hq'
    · simp [approveLoop, hval]
    · cases hcall : p call with
      | rejected => simp [approveLoop, hcall]
      | approved => simpa [approveLoop, hcall] using ih true ⟨q, hq', hval⟩
      | undecided => simpa [approveLoop, hcall] using ih flag ⟨q, hq', hval⟩

/-- **C3.** Approval aggregation of `Agent.approve`: the aggregate is
`Rejected` iff at least one approver votes `Rejected`; it is `Approved` iff
no approver votes `Rejected` and at least one votes `Approved`; it is
`Undecided` iff no approver votes `Rejected` or `Approved` — in particular
the empty approver list yields `Undecided`. -/
theorem approve_aggregation (approvers : List (ToolCall → ToolCallApproval))
    (call : ToolCall) :
    let c : AgentConf := { completer := 0, tools := NewStaticToolset, memory := 0,
                           name := "", approver := approvers }
    (c.approve call = .rejected ↔ ∃ p ∈ approvers, p call = .rejected)
    ∧ (c.approve call = .approved ↔
        (∀ p ∈ approvers, p call ≠ .rejected) ∧ ∃ p ∈ approvers, p call = .approved)
    ∧ (c.approve call = .undecided ↔
        (∀ p ∈ approvers, p call ≠ .rejected) ∧ ∀ p ∈ approvers, p call ≠ .approved)
    ∧ (({ completer := 0, tools := NewStaticToolset, memory := 0, name := "",
          approver := [] } : AgentConf).approve call = .undecided) := by
  intro c
  by_cases hrej : ∃ p ∈ approvers, p call = .rejected
  · have hr := approveLoop_rejected_of_mem call approvers false hrej
    refine ⟨⟨fun _ => hrej, fun _ => hr⟩, ?_, ?_, by simp [AgentConf.approve, approveLoop]⟩
    · constructor
      · intro h
        rw [AgentConf.approve] at h
        simp only [c] at h
        rw [hr] at h
        exact absurd h (by simp)
      · rintro ⟨hno, -⟩
        rcases hrej with ⟨p, hp, hval⟩
        exact absurd hval (hno p hp)
    · constructor
      · intro h
        rw [AgentConf.approve] at h
        simp only [c] at h
        rw [hr] at h
        exact absurd h (by simp)
      · rintro ⟨hno, -⟩
        rcases hrej with ⟨p, hp, hval⟩
        exact absurd hval (hno p hp)
  · have hno : ∀ p ∈ approvers, p call ≠ .rejected := by
      intro p hp hval
      exact hrej ⟨p, hp, hval⟩
    have hv := approveLoop_ne_rejected_of_forall call approvers false hno
    simp only [Bool.false_eq_true, false_or] at hv
    by_cases happ : ∃ p ∈ approvers, p call = .approved
    · rw [if_pos happ] at hv
      refine ⟨?_, ?_, ?_, by simp [AgentConf.approve, approveLoop]⟩
      · simp only [AgentConf.approve, c, hv]
        exact ⟨fun h => absurd h (by simp), fun h => absurd h hrej⟩
      · simp only [AgentConf.approve, c, hv]
        exact ⟨fun _ => ⟨hno, happ⟩, fun _ => trivial⟩
      · simp only [AgentConf.approve, c, hv]
        constructor
        · intro h
          exact absurd h (by simp)
        · rintro ⟨-, hnapp⟩
          rcases happ with ⟨p, hp, hval⟩
          exact absurd hval (hnapp p hp)
    · rw [if_neg happ] at hv
      refine ⟨?_, ?_, ?_, by simp [AgentConf.approve, approveLoop]⟩
      · simp only [AgentConf.approve, c, hv]
        exact ⟨fun h => absurd h (by simp), fun h => absurd (hrej h) (by simp [h])⟩
      · simp only [AgentConf.approve, c, hv]
        constructor
        · intro h
          exact absurd h (by simp)
        · rintro ⟨-, happ'⟩
          exact absurd happ' happ
      · simp only [AgentConf.approve, c, hv]
        refine ⟨fun _ => ⟨hno, ?_⟩, fun _ => trivial⟩
        intro p hp hval
        exact happ ⟨p, hp, hval⟩


lemma execCall_id (ts : Toolset) (ap : List String) (call : ToolCall) (m : Message)
    (h : execCall ts ap call = .ok m) :
    callIdOf m = some call.id ∧ isToolRecord m = true := by
  unfold execCall at h
  by_cases hap : ap.contains call.id
  · rw [if_pos hap] at h
    cases hout : ts.call call.name (normArgs call.arguments) <;>
      rw [hout] at h <;> cases h <;> simp [callIdOf, isToolRecord]
  · rw [if_neg hap] at h
    cases h
    simp [callIdOf, isToolRecord]


lemma toolCallsOf_cons (b : MessageBlock) (rest : List MessageBlock) :
    toolCallsOf (b :: rest) =
      match blockCall b with
      | some t => t :: toolCallsOf rest
      | none => toolCallsOf rest := by
  cases h : blockCall b <;> simp [toolCallsOf, List.filterMap_cons, h]

lemma call_slots_forall2 (ts : Toolset) (ap : List String)
    (content : List MessageBlock)
    (h : firstHandoff (slotsOf ts ap content) = none) :
    List.Forall₂ (fun t m => execCall ts ap t = .ok m)
      (toolCallsOf content) (okSlots (slotsOf ts ap content)) := by
  induction content with
  | nil => simp [toolCallsOf, slotsOf, okSlots]
  | cons b rest ih =>
    rw [toolCallsOf_cons]
    cases hb : blockCall b with
    | none =>
      have hs : slotsOf ts ap (b :: rest) = none :: slotsOf ts ap rest := by
        simp [slotsOf, hb]
      rw [hs] at h ⊢
      simp only [firstHandoff, List.findSome?_cons] at h
      simp only [okSlots, List.filterMap_cons]
      exact ih h
    | some t =>
      have hs : slotsOf ts ap (b :: rest) =
          some (execCall ts ap t) :: slotsOf ts ap rest := by
        simp [slotsOf, hb]
      rw [hs] at h ⊢
      cases he : execCall ts ap t with
      | error tgt =>
        exfalso
        simp [firstHandoff, List.findSome?_cons, he] at h
      | ok m =>
        simp only [firstHandoff, List.findSome?_cons, he] at h
        simp only [okSlots, List.filterMap_cons, he]
        exact List.Forall₂.cons he (ih h)

lemma call_ok_inv (c : AgentConf) (content : List MessageBlock)
    (appends : List Message) (h : c.call content = (.ok, appends)) :
    undecidedOf c content = []
    ∧ firstHandoff (slotsOf c.tools (approvedIDs c content) content) = none
    ∧ appends = okSlots (slotsOf c.tools (approvedIDs c content) content) := by
  unfold AgentConf.call at h
  by_cases hu : undecidedOf c content ≠ []
  · rw [if_pos hu] at h
    simp at h
  · rw [if_neg hu] at h
    push_neg at hu
    cases hf : firstHandoff (slotsOf c.tools (approvedIDs c content) content) with
    | some t => rw [hf] at h; simp at h
    | none =>
      rw [hf] at h
      simp only [Prod.mk.injEq] at h
      exact ⟨hu, rfl, h.2.symm⟩

lemma call_handoff_inv (c : AgentConf) (content : List MessageBlock)
    (t : Nat) (appends : List Message)
    (h : c.call content = (.handoff t, appends)) :
    appends = []
    ∧ undecidedOf c content = []
    ∧ firstHandoff (slotsOf c.tools (approvedIDs c content) content) = some t := by
  unfold AgentConf.call at h
  by_cases hu : undecidedOf c content ≠ []
  · rw [if_pos hu] at h; simp at h
  · rw [if_neg hu] at h
    push_neg at hu
    cases hf : firstHandoff (slotsOf c.tools (approvedIDs c content) content) with
    | some t' =>
      rw [hf] at h
      simp only [Prod.mk.injEq, CallOutcome.handoff.injEq] at h
      exact ⟨h.2.symm, hu, congrArg some h.1⟩
    | none => rw [hf] at h; simp at h

lemma call_approval_inv (c : AgentConf) (content : List MessageBlock)
    (u : List ToolCall) (appends : List Message)
    (h : c.call content = (.approvalRequest u, appends)) :
    appends = [] ∧ u = undecidedOf c content ∧ undecidedOf c content ≠ [] := by
  unfold AgentConf.call at h
  by_cases hu : undecidedOf c content ≠ []
  · rw [if_pos hu] at h
    simp only [Prod.mk.injEq, CallOutcome.approvalRequest.injEq] at h
    exact ⟨h.2.symm, h.1.symm, hu⟩
  · rw [if_neg hu] at h
    cases hf : firstHandoff (slotsOf c.tools (approvedIDs c content) content) with
    | some t' => rw [hf] at h; simp at h
    | none => rw [hf] at h; simp at h

lemma call_of_undecided (c : AgentConf) (content : List MessageBlock)
    (h : undecidedOf c content ≠ []) :
    c.call content = (.approvalRequest (undecidedOf c content), []) := by
  unfold AgentConf.call
  rw [if_pos h]

lemma mem_approvedIDs (c : AgentConf) (content : List MessageBlock) (s : String) :
    s ∈ approvedIDs c content ↔
      ∃ t ∈ toolCallsOf content, c.approve t = .approved ∧ t.id = s := by
  unfold approvedIDs toolCallsOf
  rw [List.mem_filterMap]
  constructor
  · rintro ⟨b, hb, hv⟩
    cases hbc : blockCall b with
    | none => rw [hbc] at hv; cases hv
    | some t =>
      rw [hbc] at hv
      dsimp only at hv
      by_cases ha : c.approve t = .approved
      · rw [if_pos ha] at hv
        cases hv
        exact ⟨t, List.mem_filterMap.mpr ⟨b, hb, hbc⟩, ha, rfl⟩
      · rw [if_neg ha] at hv; cases hv
  · rintro ⟨t, ht, ha, rfl⟩
    rcases List.mem_filterMap.mp ht with ⟨b, hb, hbc⟩
    refine ⟨b, hb, ?_⟩
    rw [hbc]
    dsimp only
    rw [if_pos ha]

lemma mem_undecidedOf (c : AgentConf) (content : List MessageBlock) (t : ToolCall) :
    t ∈ undecidedOf c content ↔
      t ∈ toolCallsOf content ∧ c.approve t = .undecided := by
  unfold undecidedOf toolCallsOf
  rw [List.mem_filterMap]
  constructor
  · rintro ⟨b, hb, hv⟩
    cases hbc : blockCall b with
    | none => rw [hbc] at hv; cases hv
    | some t' =>
      rw [hbc] at hv
      dsimp only at hv
      by_cases ha : c.approve t' = .undecided
      · rw [if_pos ha] at hv
        cases hv
        exact ⟨List.mem_filterMap.mpr ⟨b, hb, hbc⟩, ha⟩
      · rw [if_neg ha] at hv; cases hv
  · rintro ⟨ht, ha⟩
    rcases List.mem_filterMap.mp ht with ⟨b, hb, hbc⟩
    refine ⟨b, hb, ?_⟩
    rw [hbc]
    dsimp only
    rw [if_pos ha]


lemma execCall_not_approved (ap : List String) (call : ToolCall)
    (h : call.id ∉ ap) (ts : Toolset) :
    execCall ts ap call =
      .ok (.toolError call.id "tool call has been rejected by the user") := by
  unfold execCall
  rw [if_neg]
  simpa [List.contains, List.elem_iff] using h

/-- **C4.** A tool-call batch with no undecided call and no handoff commits
one message per tool-call block: the appended messages correspond
one-to-one and in block order to the batch's tool calls, each being the
slot value of its call — a ToolResult or ToolError keyed to that call's
id.  Under the data model's invariant that call ids are unique per request,
a call whose aggregate approval is `Rejected` is absent from the approved
id set, so its slot is the rejection ToolError
"tool call has been rejected by the user" for every toolset whatsoever —
its handler is never invoked and no ToolResult is produced for it. -/
theorem call_results_per_block (c : AgentConf) (content : List MessageBlock)
    (appends : List Message) (h : c.call content = (.ok, appends)) :
    List.Forall₂
      (fun t m => execCall c.tools (approvedIDs c content) t = .ok m
        ∧ callIdOf m = some t.id ∧ isToolRecord m = true)
      (toolCallsOf content) appends
    ∧ (((toolCallsOf content).map ToolCall.id).Nodup →
        ∀ t ∈ toolCallsOf content, c.approve t = .rejected →
          t.id ∉ approvedIDs c content
          ∧ ∀ ts : Toolset,
              execCall ts (approvedIDs c content) t =
                .ok (.toolError t.id "tool call has been rejected by the user")) := by
  obtain ⟨hu, hf, happ⟩ := call_ok_inv c content appends h
  constructor
  · subst happ
    refine (call_slots_forall2 c.tools (approvedIDs c content) content hf).imp ?_
    intro t m hm
    exact ⟨hm, (execCall_id _ _ _ _ hm).1, (execCall_id _ _ _ _ hm).2⟩
  · intro hnd t ht hrej
    have hnotin : t.id ∉ approvedIDs c content := by
      intro hmem
      rcases (mem_approvedIDs c content t.id).mp hmem with ⟨t', ht', ha', hid⟩
      have : t' = t := List.inj_on_of_nodup_map hnd ht' ht hid
      rw [this] at ha'
      rw [ha'] at hrej
      cases hrej
    exact ⟨hnotin, fun ts => execCall_not_approved _ _ hnotin ts⟩

/-- Witness for C4 at the concrete batch `wContentOk` (an approved `lookup`
call and a rejected `bad` call). -/
theorem call_results_per_block_witness :
    wConf.call wContentOk =
      (.ok, [.toolResult "c1" "42",
             .toolError "c2" "tool call has been rejected by the user"])
    ∧ ((toolCallsOf wContentOk).map ToolCall.id).Nodup
    ∧ cBad ∈ toolCallsOf wContentOk
    ∧ wConf.approve cBad = .rejected
    ∧ cBad.id ∉ approvedIDs wConf wContentOk := by
  have h := call_results_per_block wConf wContentOk
    [.toolResult "c1" "42", .toolError "c2" "tool call has been rejected by the user"]
    (by decide)
  refine ⟨by decide, by decide, by decide, by decide, ?_⟩
  exact (h.2 (by decide) cBad (by decide) (by decide)).1


lemma blockCall_eq_some (b : MessageBlock) (t : ToolCall) :
    blockCall b = some t ↔ b.type = .toolCall ∧ b.toolCall = some t := by
  unfold blockCall
  by_cases h : b.type = .toolCall <;> simp [h]

lemma mem_toolCallsOf (content : List MessageBlock) (t : ToolCall) :
    t ∈ toolCallsOf content ↔
      ∃ b ∈ content, b.type = .toolCall ∧ b.toolCall = some t := by
  unfold toolCallsOf
  rw [List.mem_filterMap]
  constructor
  · rintro ⟨b, hb, hv⟩
    exact ⟨b, hb, (blockCall_eq_some b t).mp hv⟩
  · rintro ⟨b, hb, hv⟩
    exact ⟨b, hb, (blockCall_eq_some b t).mpr hv⟩

lemma runLoop_toolcalls_ok_step (c : AgentConf) (system : List Message)
    (tools : List Tool) (model : String) (fuel : Nat)
    (resp : CompletionResponse) (rest : List (Option CompletionResponse))
    (mem : List Message) (reqs : List CompletionRequest) (reply : List MessageBlock)
    (appends : List Message)
    (hfin : resp.finishReason = .toolCalls)
    (hcall : c.call resp.content = (.ok, appends)) :
    runLoop c system tools model (fuel + 1) (some resp :: rest) mem reqs reply =
      runLoop c system tools model fuel rest
        (mem ++ [Message.assistant resp.content] ++ appends)
        (reqs ++ [remapModel c.models (mkRequest c model tools (system ++ mem))])
        resp.content := by
  simp only [runLoop, hfin, hcall]

lemma runLoop_approval_step (c : AgentConf) (system : List Message)
    (tools : List Tool) (model : String) (fuel : Nat)
    (resp : CompletionResponse) (rest : List (Option CompletionResponse))
    (mem : List Message) (reqs : List CompletionRequest) (reply : List MessageBlock)
    (u : List ToolCall) (appends : List Message)
    (hfin : resp.finishReason = .toolCalls)
    (hcall : c.call resp.content = (.approvalRequest u, appends)) :
    runLoop c system tools model (fuel + 1) (some resp :: rest) mem reqs reply =
      ⟨resp.content, some (.toolApproval u),
        mem ++ [Message.assistant resp.content],
        reqs ++ [remapModel c.models (mkRequest c model tools (system ++ mem))]⟩ := by
  simp only [runLoop, hfin, hcall]

lemma runLoop_handoff_step (c : AgentConf) (system : List Message)
    (tools : List Tool) (model : String) (fuel : Nat)
    (resp : CompletionResponse) (rest : List (Option CompletionResponse))
    (mem : List Message) (reqs : List CompletionRequest) (reply : List MessageBlock)
    (t : Nat) (appends : List Message)
    (hfin : resp.finishReason = .toolCalls)
    (hcall : c.call resp.content = (.handoff t, appends)) :
    runLoop c system tools model (fuel + 1) (some resp :: rest) mem reqs reply =
      ⟨resp.content, some (.handoff t),
        mem ++ [Message.assistant resp.content],
        reqs ++ [remapModel c.models (mkRequest c model tools (system ++ mem))]⟩ := by
  simp only [runLoop, hfin, hcall]

lemma runLoop_final_ok_step (c : AgentConf) (system : List Message)
    (tools : List Tool) (model : String) (fuel : Nat)
    (resp : CompletionResponse) (rest : List (Option CompletionResponse))
    (mem : List Message) (reqs : List CompletionRequest) (reply : List MessageBlock)
    (r : List MessageBlock)
    (hfin : resp.finishReason ≠ .toolCalls)
    (hfz : runFinalizers c.finalizer resp.content = (r, none)) :
    runLoop c system tools model (fuel + 1) (some resp :: rest) mem reqs reply =
      ⟨r, none, mem ++ [Message.assistant resp.content],
        reqs ++ [remapModel c.models (mkRequest c model tools (system ++ mem))]⟩ := by
  cases hr : resp.finishReason with
  | toolCalls => exact absurd hr hfin
  | stop => simp only [runLoop, hr, hfz]
  | length => simp only [runLoop, hr, hfz]
  | contentFilter => simp only [runLoop, hr, hfz]

lemma runLoop_final_retry_step (c : AgentConf) (system : List Message)
    (tools : List Tool) (model : String) (fuel : Nat)
    (resp : CompletionResponse) (rest : List (Option CompletionResponse))
    (mem : List Message) (reqs : List CompletionRequest) (reply : List MessageBlock)
    (r : List MessageBlock) (e : String)
    (hfin : resp.finishReason ≠ .toolCalls)
    (hfz : runFinalizers c.finalizer resp.content = (r, some e)) :
    runLoop c system tools model (fuel + 1) (some resp :: rest) mem reqs reply =
      runLoop c system tools model fuel rest
        (mem ++ [Message.assistant resp.content, Message.user ("ERROR: " ++ e)])
        (reqs ++ [remapModel c.models (mkRequest c model tools (system ++ mem))]) r := by
  cases hr : resp.finishReason with
  | toolCalls => exact absurd hr hfin
  | stop => simp only [runLoop, hr, hfz]
  | length => simp only [runLoop, hr, hfz]
  | contentFilter => simp only [runLoop, hr, hfz]

/-- **C2.** When some tool-call block of the model response aggregates to
`Undecided`, the iteration returns immediately with the
`ToolApprovalRequest` listing exactly the calls whose aggregate approval is
`Undecided` (in block order); no slot of the batch is computed — the
outcome is the same for every toolset, so no handler of the batch runs,
approved calls included; nothing beyond the AssistantMessage is appended,
which therefore remains the last message in Memory. -/
theorem undecided_blocks_batch (c : AgentConf) (system : List Message)
    (tools : List Tool) (model : String) (fuel : Nat)
    (resp : CompletionResponse) (rest : List (Option CompletionResponse))
    (mem : List Message) (reqs : List CompletionRequest) (reply : List MessageBlock)
    (hfin : resp.finishReason = .toolCalls)
    (hund : undecidedOf c resp.content ≠ []) :
    runLoop c system tools model (fuel + 1) (some resp :: rest) mem reqs reply =
      ⟨resp.content, some (.toolApproval (undecidedOf c resp.content)),
        mem ++ [Message.assistant resp.content],
        reqs ++ [remapModel c.models (mkRequest c model tools (system ++ mem))]⟩
    ∧ (runLoop c system tools model (fuel + 1)
        (some resp :: rest) mem reqs reply).memory.getLast? =
        some (Message.assistant resp.content)
    ∧ (∀ ts : Toolset,
        AgentConf.call { c with tools := ts } resp.content = c.call resp.content)
    ∧ (∀ t : ToolCall, t ∈ undecidedOf c resp.content ↔
        (∃ b ∈ resp.content, b.type = .toolCall ∧ b.toolCall = some t)
        ∧ c.approve t = .undecided) := by
  have hcall := call_of_undecided c resp.content hund
  have hstep := runLoop_approval_step c system tools model fuel resp rest mem reqs reply
    (undecidedOf c resp.content) [] hfin hcall
  refine ⟨hstep, ?_, ?_, ?_⟩
  · rw [hstep]
    exact List.getLast?_concat _
  · intro ts
    have heq : undecidedOf { c with tools := ts } resp.content =
        undecidedOf c resp.content := rfl
    have hund' : undecidedOf { c with tools := ts } resp.content ≠ [] := by
      rw [heq]; exact hund
    rw [call_of_undecided _ _ hund', hcall, heq]
  · intro t
    rw [mem_undecidedOf]
    constructor
    · rintro ⟨ht, ha⟩
      exact ⟨(mem_toolCallsOf _ _).mp ht, ha⟩
    · rintro ⟨hb, ha⟩
      exact ⟨(mem_toolCallsOf _ _).mpr hb, ha⟩

/-- Witness for C2 at the concrete batch `wContentPending` (an approved
`lookup` call next to an undecided `mystery` call). -/
theorem undecided_blocks_batch_witness :
    (⟨wContentPending, .toolCalls⟩ : CompletionResponse).finishReason = .toolCalls
    ∧ undecidedOf wConf wContentPending ≠ []
    ∧ wConf.approve cLookup = .approved
    ∧ runLoop wConf [] wTools.list "gpt" 120
        [some ⟨wContentPending, .toolCalls⟩] [Message.user "q"] [] [] =
      ⟨wContentPending, some (.toolApproval (undecidedOf wConf wContentPending)),
        [Message.user "q", Message.assistant wContentPending],
        [remapModel wConf.models
          (mkRequest wConf "gpt" wTools.list ([] ++ [Message.user "q"]))]⟩ := by
  refine ⟨rfl, by decide, by decide, ?_⟩
  exact (undecided_blocks_batch wConf [] wTools.list "gpt" 119
    ⟨wContentPending, .toolCalls⟩ [] [Message.user "q"] [] [] rfl (by decide)).1

/-- **C10.** A handoff raised by a handler of an executing batch makes
`call` return the handoff with nothing appended for the batch — no
ToolResult or ToolError for any call, including calls whose slots had
completed — so the iteration leaves only the previously appended
AssistantMessage in Memory and returns the handoff error. -/
theorem call_handoff_appends_nothing (c : AgentConf)
    (resp : CompletionResponse) (t : Nat) (appends : List Message)
    (hfin : resp.finishReason = .toolCalls)
    (hcall : c.call resp.content = (.handoff t, appends)) :
    appends = []
    ∧ ∀ (system : List Message) (tools : List Tool) (model : String)
        (fuel : Nat) (rest : List (Option CompletionResponse))
        (mem : List Message) (reqs : List CompletionRequest)
        (reply : List MessageBlock),
        runLoop c system tools model (fuel + 1) (some resp :: rest) mem reqs reply =
          ⟨resp.content, some (.handoff t),
            mem ++ [Message.assistant resp.content],
            reqs ++ [remapModel c.models (mkRequest c model tools (system ++ mem))]⟩ := by
  refine ⟨(call_handoff_inv c resp.content t appends hcall).1, ?_⟩
  intro system tools model fuel rest mem reqs reply
  exact runLoop_handoff_step c system tools model fuel resp rest mem reqs reply t
    appends hfin hcall

/-- Witness for C10 at the concrete batch `wContentHandoff`: the `lookup`
call completes successfully (its slot is a ToolResult) while `delegate`
hands off, yet nothing of the batch reaches Memory. -/
theorem call_handoff_appends_nothing_witness :
    (⟨wContentHandoff, .toolCalls⟩ : CompletionResponse).finishReason = .toolCalls
    ∧ wConf.call wContentHandoff = (.handoff 1, [])
    ∧ execCall wTools (approvedIDs wConf wContentHandoff) cLookup =
        .ok (.toolResult "c1" "42")
    ∧ runLoop wConf [] wTools.list "gpt" 120
        [some ⟨wContentHandoff, .toolCalls⟩] [Message.user "q"] [] [] =
      ⟨wContentHandoff, some (.handoff 1),
        [Message.user "q", Message.assistant wContentHandoff],
        [remapModel wConf.models
          (mkRequest wConf "gpt" wTools.list ([] ++ [Message.user "q"]))]⟩ := by
  refine ⟨rfl, by decide, by rfl, ?_⟩
  exact (call_handoff_appends_nothing wConf ⟨wContentHandoff, .toolCalls⟩ 1 []
    rfl (by decide)).2 [] wTools.list "gpt" 119 [] [Message.user "q"] [] []


lemma runFinalizers_append
    (fs1 fs2 : List (List MessageBlock → List MessageBlock × Option String))
    (r : List MessageBlock) :
    runFinalizers (fs1 ++ fs2) r =
      match runFinalizers fs1 r with
      | (r1, none) => runFinalizers fs2 r1
      | (r1, some e) => (r1, some e) := by
  induction fs1 generalizing r with
  | nil => simp [runFinalizers]
  | cons f fs ih =>
    simp only [List.cons_append, runFinalizers]
    rcases hf : f r with ⟨r', e?⟩
    cases e? <;> simp [ih]

/-- **C8.** On any finish reason other than tool-calls: if the finalizer
chain succeeds, the loop terminates returning the (finalizer-threaded)
reply with no error and only the AssistantMessage appended; if the chain
fails, the user message `ERROR: <detail>` is appended after the
AssistantMessage and the loop restarts with one fewer iteration; and the
chain short-circuits at the first failing finalizer — the finalizers after
it never run. -/
theorem finalizer_loop (c : AgentConf) (system : List Message)
    (tools : List Tool) (model : String) (fuel : Nat)
    (resp : CompletionResponse) (rest : List (Option CompletionResponse))
    (mem : List Message) (reqs : List CompletionRequest) (reply : List MessageBlock)
    (hfin : resp.finishReason ≠ .toolCalls) :
    (∀ r, runFinalizers c.finalizer resp.content = (r, none) →
        runLoop c system tools model (fuel + 1) (some resp :: rest) mem reqs reply =
          ⟨r, none, mem ++ [Message.assistant resp.content],
            reqs ++ [remapModel c.models (mkRequest c model tools (system ++ mem))]⟩)
    ∧ (∀ r e, runFinalizers c.finalizer resp.content = (r, some e) →
        runLoop c system tools model (fuel + 1) (some resp :: rest) mem reqs reply =
          runLoop c system tools model fuel rest
            (mem ++ [Message.assistant resp.content,
                     Message.user ("ERROR: " ++ e)])
            (reqs ++ [remapModel c.models (mkRequest c model tools (system ++ mem))]) r)
    ∧ (∀ (fs1 : List (List MessageBlock → List MessageBlock × Option String))
         (f : List MessageBlock → List MessageBlock × Option String)
         (fs2 : List (List MessageBlock → List MessageBlock × Option String))
         (r r1 r2 : List MessageBlock) (e : String),
        runFinalizers fs1 r = (r1, none) → f r1 = (r2, some e) →
        runFinalizers (fs1 ++ f :: fs2) r = (r2, some e)) := by
  refine ⟨?_, ?_, ?_⟩
  · intro r hr
    exact runLoop_final_ok_step c system tools model fuel resp rest mem reqs reply r
      hfin hr
  · intro r e hr
    exact runLoop_final_retry_step c system tools model fuel resp rest mem reqs reply
      r e hfin hr
  · intro fs1 f fs2 r r1 r2 e h1 h2
    rw [runFinalizers_append, h1]
    simp only [runFinalizers, h2]

/-- Witness for C8: a stop response checked by the chain accept / fail /
mutate — the failing finalizer short-circuits (the mutating finalizer
never runs), the `ERROR:` user message is appended and the loop retries,
consuming the next scripted response. -/
theorem finalizer_loop_witness :
    (⟨[textBlock "not json"], .stop⟩ : CompletionResponse).finishReason ≠
        FinishReason.toolCalls
    ∧ runFinalizers wFzConf.finalizer [textBlock "not json"] =
        ([textBlock "not json"], some "reply is not valid JSON")
    ∧ runFinalizers [fzOk] [textBlock "not json"] = ([textBlock "not json"], none)
    ∧ fzFail [textBlock "not json"] =
        ([textBlock "not json"], some "reply is not valid JSON")
    ∧ runLoop wFzConf [] wTools.list "gpt" 120
        (some ⟨[textBlock "not json"], .stop⟩ :: wScriptStop)
        [Message.user "q"] [] [] =
      runLoop wFzConf [] wTools.list "gpt" 119 wScriptStop
        [Message.user "q", Message.assistant [textBlock "not json"],
         Message.user "ERROR: reply is not valid JSON"]
        [remapModel wFzConf.models
          (mkRequest wFzConf "gpt" wTools.list ([] ++ [Message.user "q"]))]
        [textBlock "not json"] := by
  refine ⟨by decide, by rfl, by rfl, by rfl, ?_⟩
  exact (finalizer_loop wFzConf [] wTools.list "gpt" 119
    ⟨[textBlock "not json"], .stop⟩ wScriptStop [Message.user "q"] [] []
    (by decide)).2.1 [textBlock "not json"] "reply is not valid JSON" (by rfl)


lemma countAssistant_append (l1 l2 : List Message) :
    countAssistant (l1 ++ l2) = countAssistant l1 + countAssistant l2 := by
  simp [countAssistant, List.filter_append]

lemma countAssistant_single_assistant (x : List MessageBlock) :
    countAssistant [Message.assistant x] = 1 := by
  simp [countAssistant, List.filter_cons]

lemma countAssistant_assistant_user (x : List MessageBlock) (e : String) :
    countAssistant [Message.assistant x, Message.user e] = 1 := by
  simp [countAssistant, List.filter_cons]

lemma countAssistant_eq_zero_of_toolRecords (l : List Message)
    (h : ∀ m ∈ l, isToolRecord m = true) : countAssistant l = 0 := by
  unfold countAssistant
  rw [List.length_eq_zero, List.filter_eq_nil_iff]
  intro m hm
  have := h m hm
  cases m <;> simp_all [isToolRecord]

lemma mem_okSlots_slotsOf (ts : Toolset) (ap : List String)
    (content : List MessageBlock) (m : Message)
    (h : m ∈ okSlots (slotsOf ts ap content)) :
    ∃ t, execCall ts ap t = .ok m := by
  unfold okSlots at h
  rcases List.mem_filterMap.mp h with ⟨s, hs, hv⟩
  rcases s with - | e
  · cases hv
  · rcases e with m' | m'
    · cases hv
    · cases hv
      rcases List.mem_map.mp hs with ⟨b, -, hb⟩
      cases hbc : blockCall b with
      | none => rw [hbc] at hb; cases hb
      | some t =>
        rw [hbc] at hb
        rw [Option.map_some'] at hb
        rw [Option.some.injEq] at hb
        exact ⟨t, hb⟩

lemma call_ok_all_toolRecords (c : AgentConf) (content : List MessageBlock)
    (appends : List Message) (h : c.call content = (.ok, appends)) :
    ∀ m ∈ appends, isToolRecord m = true := by
  obtain ⟨-, -, happ⟩ := call_ok_inv c content appends h
  subst happ
  intro m hm
  rcases mem_okSlots_slotsOf _ _ _ m hm with ⟨t, ht⟩
  exact (execCall_id _ _ _ _ ht).2

lemma map_eq_of_forall2 {α β γ : Type} {R : α → β → Prop} {f : α → γ} {g : β → γ}
    (himp : ∀ a b, R a b → g b = f a) :
    ∀ {l1 : List α} {l2 : List β}, List.Forall₂ R l1 l2 → l2.map g = l1.map f := by
  intro l1 l2 h
  induction h with
  | nil => rfl
  | cons hr _ ih => simp [ih, himp _ _ hr]

lemma call_ok_ids (c : AgentConf) (content : List MessageBlock)
    (appends : List Message) (h : c.call content = (.ok, appends)) :
    appends.map callIdOf = (toolCallsOf content).map (fun t => some t.id) := by
  obtain ⟨-, hf, happ⟩ := call_ok_inv c content appends h
  subst happ
  refine map_eq_of_forall2 ?_ (call_slots_forall2 _ _ _ hf)
  intro t m hm
  exact (execCall_id _ _ _ _ hm).1

lemma runLoop_count (c : AgentConf) (system : List Message) (tools : List Tool)
    (model : String) :
    ∀ (fuel : Nat) (script : List (Option CompletionResponse))
      (mem : List Message) (reqs : List CompletionRequest)
      (reply : List MessageBlock),
      (runLoop c system tools model fuel script mem reqs reply).err = none →
      countAssistant (runLoop c system tools model fuel script mem reqs reply).memory
          + reqs.length =
        countAssistant mem
          + (runLoop c system tools model fuel script mem reqs reply).requests.length := by
  intro fuel
  induction fuel with
  | zero => intro script mem reqs reply _; simp [runLoop]
  | succ fuel ih =>
    intro script mem reqs reply herr
    match script with
    | [] => simp [runLoop] at herr
    | none :: rest => simp [runLoop] at herr
    | some resp :: rest =>
      by_cases hr : resp.finishReason = FinishReason.toolCalls
      · rcases hc : c.call resp.content with ⟨outcome, appends⟩
        cases outcome with
        | ok =>
          rw [runLoop_toolcalls_ok_step c system tools model fuel resp rest mem reqs
            reply appends hr hc] at herr ⊢
          have h0 : countAssistant appends = 0 :=
            countAssistant_eq_zero_of_toolRecords appends
              (call_ok_all_toolRecords c resp.content appends hc)
          have hrec := ih rest
            (mem ++ [Message.assistant resp.content] ++ appends)
            (reqs ++ [remapModel c.models (mkRequest c model tools (system ++ mem))])
            resp.content herr
          rw [countAssistant_append, countAssistant_append, h0,
            countAssistant_single_assistant, List.length_append] at hrec
          simp only [List.length_cons, List.length_nil] at hrec
          omega
        | approvalRequest u =>
          rw [runLoop_approval_step c system tools model fuel resp rest mem reqs reply
            u appends hr hc] at herr
          simp at herr
        | handoff t =>
          rw [runLoop_handoff_step c system tools model fuel resp rest mem reqs reply
            t appends hr hc] at herr
          simp at herr
      · rcases hfz : runFinalizers c.finalizer resp.content with ⟨r, e?⟩
        cases e? with
        | none =>
          rw [runLoop_final_ok_step c system tools model fuel resp rest mem reqs reply
            r hr hfz] at herr ⊢
          rw [countAssistant_append, countAssistant_single_assistant,
            List.length_append]
          simp only [List.length_cons, List.length_nil]
          omega
        | some e =>
          rw [runLoop_final_retry_step c system tools model fuel resp rest mem reqs
            reply r e hr hfz] at herr ⊢
          have hrec := ih rest
            (mem ++ [Message.assistant resp.content, Message.user ("ERROR: " ++ e)])
            (reqs ++ [remapModel c.models (mkRequest c model tools (system ++ mem))])
            r herr
          rw [countAssistant_append, countAssistant_assistant_user,
            List.length_append] at hrec
          simp only [List.length_cons, List.length_nil] at hrec
          omega


lemma run_count (a : Agent) (now : Clock) (opts : List (Agent → Agent))
    (script : List (Option CompletionResponse)) (mem : List Message)
    (herr : (a.run now opts script mem).err = none) :
    countAssistant (a.run now opts script mem).memory =
      countAssistant mem + (a.run now opts script mem).requests.length := by
  simp only [Agent.run] at herr ⊢
  rcases hld : applyLoaders (opts.foldl (fun ag o => o ag) a.clone).dynamics
      (opts.foldl (fun ag o => o ag) a.clone).conf with e | conf
  · rw [hld] at herr
    simp at herr
  · rw [hld] at herr ⊢
    dsimp only at herr ⊢
    cases hla : lastAssistant mem with
    | none =>
      rw [hla] at herr
      dsimp only at herr ⊢
      simpa using runLoop_count conf _ conf.tools.list conf.model
        conf.iterations.toNat script mem [] [] herr
    | some content =>
      rw [hla] at herr
      dsimp only at herr ⊢
      rcases hcall : conf.call content with ⟨outcome, appends⟩
      cases outcome with
      | ok =>
        rw [hcall] at herr
        dsimp only at herr ⊢
        have h0 : countAssistant appends = 0 :=
          countAssistant_eq_zero_of_toolRecords appends
            (call_ok_all_toolRecords conf content appends hcall)
        have := runLoop_count conf _ conf.tools.list conf.model
          conf.iterations.toNat script (mem ++ appends) [] [] herr
        rw [countAssistant_append, h0] at this
        simpa using this
      | approvalRequest u =>
        rw [hcall] at herr
        simp at herr
      | handoff t =>
        rw [hcall] at herr
        simp at herr

/-- **C5.** Memory ordering: (1) a committed batch appends one
ToolResult/ToolError per tool-call block, keyed to the call ids in
original block order; (2) a tool-call iteration commits the whole batch in
one step — the AssistantMessage followed by all batch results at once,
never incrementally; (3)–(4) in any loop run and any whole `Run`
terminating without error, the number of AssistantMessages appended to
Memory equals the number of completer invocations (requests issued). -/
theorem memory_ordering_invariant (c : AgentConf) (system : List Message)
    (tools : List Tool) (model : String) :
    (∀ content appends, c.call content = (.ok, appends) →
        appends.map callIdOf = (toolCallsOf content).map (fun t => some t.id)
        ∧ ∀ m ∈ appends, isToolRecord m = true)
    ∧ (∀ (fuel : Nat) (resp : CompletionResponse)
        (rest : List (Option CompletionResponse)) (mem : List Message)
        (reqs : List CompletionRequest) (reply : List MessageBlock)
        (appends : List Message),
        resp.finishReason = .toolCalls →
        c.call resp.content = (.ok, appends) →
        runLoop c system tools model (fuel + 1) (some resp :: rest) mem reqs reply =
          runLoop c system tools model fuel rest
            (mem ++ [Message.assistant resp.content] ++ appends)
            (reqs ++ [remapModel c.models (mkRequest c model tools (system ++ mem))])
            resp.content)
    ∧ (∀ (fuel : Nat) (script : List (Option CompletionResponse))
        (mem : List Message) (reqs : List CompletionRequest)
        (reply : List MessageBlock),
        (runLoop c system tools model fuel script mem reqs reply).err = none →
        countAssistant
            (runLoop c system tools model fuel script mem reqs reply).memory
            + reqs.length =
          countAssistant mem
            + (runLoop c system tools model fuel script mem reqs reply).requests.length)
    ∧ (∀ (a : Agent) (now : Clock) (opts : List (Agent → Agent))
        (script : List (Option CompletionResponse)) (mem : List Message),
        (a.run now opts script mem).err = none →
        countAssistant (a.run now opts script mem).memory =
          countAssistant mem + (a.run now opts script mem).requests.length) := by
  refine ⟨?_, ?_, runLoop_count c system tools model, run_count⟩
  · intro content appends h
    exact ⟨call_ok_ids c content appends h, call_ok_all_toolRecords c content appends h⟩
  · intro fuel resp rest mem reqs reply appends hfin hcall
    exact runLoop_toolcalls_ok_step c system tools model fuel resp rest mem reqs
      reply appends hfin hcall

/-- Witness for C5: the committed batch of `wContentOk`, and a complete
`Run` of `wAgent` answering "2+2?" in one model turn — one
AssistantMessage appended, one completer invocation. -/
theorem memory_ordering_invariant_witness :
    wConf.call wContentOk =
      (.ok, [.toolResult "c1" "42",
             .toolError "c2" "tool call has been rejected by the user"])
    ∧ (wAgent.run wClock [] wScriptStop [Message.user "2+2?"]).err = none
    ∧ ([Message.toolResult "c1" "42",
        Message.toolError "c2" "tool call has been rejected by the user"]).map callIdOf
        = (toolCallsOf wContentOk).map (fun t => some t.id)
    ∧ countAssistant (wAgent.run wClock [] wScriptStop [Message.user "2+2?"]).memory =
        countAssistant [Message.user "2+2?"]
          + (wAgent.run wClock [] wScriptStop [Message.user "2+2?"]).requests.length := by
  refine ⟨by decide, by decide, ?_, ?_⟩
  · exact ((memory_ordering_invariant wConf [] wTools.list "gpt").1 wContentOk _
      (by decide)).1
  · exact (memory_ordering_invariant wConf [] wTools.list "gpt").2.2.2 wAgent wClock
      [] wScriptStop [Message.user "2+2?"] (by decide)


/-- **C1 (counterexample).** At a concrete run in which the `delegate`
handler raises a handoff to `wAgentB`: `Run` returns the handoff error
after one completer invocation, leaving in memory only the
AssistantMessage; it does not transfer control to the target agent's
`Run` — running the target on the same memory (as the claim describes)
would consume the remaining script and finish without error, an outcome
different from what `Run` actually returns. -/
theorem handoff_not_transferred_counterexample :
    (wAgent.run wClock [] wScriptA [Message.user "q"]).err = some (.handoff 1)
    ∧ (wAgent.run wClock [] wScriptA [Message.user "q"]).memory =
        [Message.user "q", Message.assistant [tcBlock cDelegate]]
    ∧ (wAgent.run wClock [] wScriptA [Message.user "q"]).requests.length = 1
    ∧ (wAgentB.run wClock [] [some ⟨[textBlock "handled by specialist"], .stop⟩]
        [Message.user "q", Message.assistant [tcBlock cDelegate]]).err = none
    ∧ wAgent.run wClock [] wScriptA [Message.user "q"] ≠
        wAgentB.run wClock [] [some ⟨[textBlock "handled by specialist"], .stop⟩]
          [Message.user "q", Message.assistant [tcBlock cDelegate]] := by
  refine ⟨by decide, by decide, by decide, by decide, by decide⟩

/-- **C1 (amended).** A handoff raised by a tool handler is not treated as
a normal tool error: at the execution level it becomes the batch's error
rather than a ToolError slot; the iteration appends nothing of the batch
and `Run` returns the `Handoff` error — carrying the target agent — to
its own caller, with the conversation memory ending at the
AssistantMessage that requested the calls.  (`Run` itself does not invoke
the target agent; the caller receives the handoff.) -/
theorem handoff_propagates_to_caller :
    (∀ (ts : Toolset) (ap : List String) (call : ToolCall) (tgt : Nat),
        ap.contains call.id = true →
        ts.call call.name (normArgs call.arguments) = .handoff tgt →
        execCall ts ap call = .error tgt)
    ∧ (∀ (c : AgentConf) (system : List Message) (tools : List Tool)
        (model : String) (fuel : Nat) (resp : CompletionResponse)
        (rest : List (Option CompletionResponse)) (mem : List Message)
        (reqs : List CompletionRequest) (reply : List MessageBlock)
        (t : Nat) (appends : List Message),
        resp.finishReason = .toolCalls →
        c.call resp.content = (.handoff t, appends) →
        runLoop c system tools model (fuel + 1) (some resp :: rest) mem reqs reply =
          ⟨resp.content, some (.handoff t),
            mem ++ [Message.assistant resp.content],
            reqs ++ [remapModel c.models (mkRequest c model tools (system ++ mem))]⟩)
    ∧ (∀ (a : Agent) (now : Clock) (resp : CompletionResponse)
        (rest : List (Option CompletionResponse)) (mem : List Message)
        (t : Nat) (appends : List Message),
        a.dynamics = [] →
        lastAssistant mem = none →
        0 < a.conf.iterations →
        resp.finishReason = .toolCalls →
        a.clone.conf.call resp.content = (.handoff t, appends) →
        (a.run now [] (some resp :: rest) mem).err = some (.handoff t)
        ∧ (a.run now [] (some resp :: rest) mem).memory =
            mem ++ [Message.assistant resp.content]) := by
  refine ⟨?_, ?_, ?_⟩
  · intro ts ap call tgt hap hout
    unfold execCall
    rw [if_pos hap, hout]
  · intro c system tools model fuel resp rest mem reqs reply t appends hfin hcall
    exact runLoop_handoff_step c system tools model fuel resp rest mem reqs reply t
      appends hfin hcall
  · intro a now resp rest mem t appends hdyn hlast hiter hfin hcall
    have hpos : 0 < a.clone.conf.iterations.toNat := by
      have : a.clone.conf.iterations = a.conf.iterations := rfl
      omega
    obtain ⟨k, hk⟩ := Nat.exists_eq_succ_of_ne_zero (Nat.pos_iff_ne_zero.mp hpos)
    have hld : applyLoaders a.clone.dynamics a.clone.conf = .ok a.clone.conf := by
      have : a.clone.dynamics = a.dynamics := rfl
      rw [this, hdyn]
      rfl
    have hstep := runLoop_handoff_step a.clone.conf
      (a.clone.conf.messages.map (fun m => renderMessage now m a.clone.conf.values))
      a.clone.conf.tools.list a.clone.conf.model k resp rest mem [] [] t appends
      hfin hcall
    constructor
    · simp only [Agent.run, List.foldl_nil]
      rw [hld]
      dsimp only
      rw [hlast]
      dsimp only
      rw [hk, hstep]
    · simp only [Agent.run, List.foldl_nil]
      rw [hld]
      dsimp only
      rw [hlast]
      dsimp only
      rw [hk, hstep]

/-- Witness for the amended C1 at the concrete handoff scenario. -/
theorem handoff_propagates_to_caller_witness :
    wAgent.dynamics = []
    ∧ lastAssistant [Message.user "q"] = none
    ∧ 0 < wAgent.conf.iterations
    ∧ wAgent.clone.conf.call [tcBlock cDelegate] =
        (.handoff 1, [])
    ∧ (wAgent.run wClock [] wScriptA [Message.user "q"]).err = some (.handoff 1)
    ∧ (wAgent.run wClock [] wScriptA [Message.user "q"]).memory =
        [Message.user "q"] ++ [Message.assistant [tcBlock cDelegate]] := by
  refine ⟨rfl, by decide, by decide, by decide, ?_⟩
  exact handoff_propagates_to_caller.2.2 wAgent wClock
    ⟨[tcBlock cDelegate], .toolCalls⟩
    [some ⟨[textBlock "handled by specialist"], .stop⟩]
    [Message.user "q"] 1 [] rfl (by decide) (by decide) rfl (by decide)


/-- **C6 (code bug).** `clone` does not preserve the whole configuration:
at the concrete agent `wAgentC6` — whose every droppable field is set —
the clone comes back with `values`, `temperature`, `maxTokens`, `topP`,
`topK` and `useCache` reset to nil, although `clone`'s own comment calls
it a deep copy taken to avoid shared state.  Consequently a `Run` with no
per-call options issues its completion request with no sampling
parameters at all, and renders the starter template with a nil values
map — the missing `name` variable renders empty, so the request carries
"Hi " where rendering with the agent's configured values would have
produced "Hi Bob". -/
theorem clone_drops_configuration :
    wAgentC6.conf.temperature = some 1
    ∧ wAgentC6.clone.conf.temperature = none
    ∧ wAgentC6.conf.values = some [("name", "Bob")]
    ∧ wAgentC6.clone.conf.values = none
    ∧ wAgentC6.conf.maxTokens = some 256
    ∧ wAgentC6.clone.conf.maxTokens = none
    ∧ wAgentC6.conf.topP = some (9/10)
    ∧ wAgentC6.clone.conf.topP = none
    ∧ wAgentC6.conf.topK = some 40
    ∧ wAgentC6.clone.conf.topK = none
    ∧ wAgentC6.conf.useCache = some true
    ∧ wAgentC6.clone.conf.useCache = none
    ∧ (wAgentC6.run wClock [] wScriptStop []).requests.map (fun r => r.temperature) =
        [none]
    ∧ (wAgentC6.run wClock [] wScriptStop []).requests.map (fun r => r.maxTokens) =
        [none]
    ∧ (wAgentC6.run wClock [] wScriptStop []).requests.map (fun r => r.topP) = [none]
    ∧ (wAgentC6.run wClock [] wScriptStop []).requests.map (fun r => r.topK) = [none]
    ∧ (wAgentC6.run wClock [] wScriptStop []).requests.map (fun r => r.useCache) =
        [none]
    ∧ (wAgentC6.run wClock [] wScriptStop []).requests.map (fun r => r.messages) =
        [[Message.user "Hi "]]
    ∧ renderMessage wClock (Message.user "Hi \x7b\x7bname\x7d\x7d")
        wAgentC6.conf.values = Message.user "Hi Bob"
    ∧ Message.user "Hi " ≠ Message.user "Hi Bob" := by
  refine ⟨rfl, rfl, rfl, rfl, rfl, rfl, rfl, rfl, rfl, rfl, rfl, rfl,
    by decide, by decide, by decide, by decide, by decide, by decide, ?_, by decide⟩
  decide


lemma chunked_join (n : Nat) : ∀ (k : Nat) (l : List ToolCall), l.length ≤ k →
    (chunked n l).flatten = l := by
  intro k
  induction k with
  | zero =>
    intro l hl
    have h0 : l = [] := List.length_eq_zero.mp (Nat.le_zero.mp hl)
    subst h0
    simp [chunked]
  | succ k ih =>
    intro l hl
    cases l with
    | nil => simp [chunked]
    | cons x xs =>
      rw [chunked]
      simp only [List.flatten_cons]
      rw [ih (xs.drop (n - 1))
        (by simp only [List.length_drop]; simp only [List.length_cons] at hl; omega)]
      simp [List.take_append_drop]

lemma chunked_size (n : Nat) (hn : 1 ≤ n) : ∀ (k : Nat) (l : List ToolCall),
    l.length ≤ k → ∀ c ∈ chunked n l, c.length ≤ n := by
  intro k
  induction k with
  | zero =>
    intro l hl c hc
    have h0 : l = [] := List.length_eq_zero.mp (Nat.le_zero.mp hl)
    subst h0
    simp [chunked] at hc
  | succ k ih =>
    intro l hl c hc
    cases l with
    | nil => simp [chunked] at hc
    | cons x xs =>
      rw [chunked] at hc
      rcases List.mem_cons.mp hc with rfl | hc'
      · simp only [List.length_cons]
        have := List.length_take_le (n - 1) xs
        omega
      · exact ih (xs.drop (n - 1))
          (by simp only [List.length_drop]; simp only [List.length_cons] at hl; omega)
          c hc'

/-- **C7 (counterexample).** The parallelism bound 0 is non-positive, yet it
does not mean unbounded parallelism: with `eg.SetLimit(0)` no goroutine
may start, so a batch of one call can never be scheduled — unlike a
negative bound, which removes the limit. -/
theorem parallelism_zero_counterexample :
    (withToolParallelism 0 (New "a" [])).conf.parallelism = 0
    ∧ egWaves 0 [cLookup] = none
    ∧ egWaves (-1) [cLookup] = some [[cLookup]]
    ∧ egWaves 0 [cLookup] ≠ some [[cLookup]] := by
  refine ⟨rfl, by decide, by decide, by decide⟩

/-- **C7 (amended).** Tool batches are scheduled under the configured
parallelism bound, whose default from `New` is 5 and which
`WithToolParallelism` sets unvalidated; bound 1 runs the batch strictly
sequentially (singleton waves, in order), a negative bound runs it as one
unbounded wave, and for every bound other than 0 (and only those, on
non-empty batches) a schedule exists; any existing schedule runs every
call of the batch exactly once in order, in waves of at most the bound.
With bound 0 a non-empty batch has no schedule (`call` blocks forever). -/
theorem parallelism_schedule :
    (New "a" []).conf.parallelism = 5
    ∧ (∀ limit : Int, (withToolParallelism limit (New "a" [])).conf.parallelism = limit)
    ∧ (∀ tasks : List ToolCall, egWaves 1 tasks = some (tasks.map (fun t => [t])))
    ∧ (∀ (limit : Int) (tasks : List ToolCall), limit < 0 → tasks ≠ [] →
        egWaves limit tasks = some [tasks])
    ∧ (∀ (limit : Int) (tasks : List ToolCall),
        (∃ w, egWaves limit tasks = some w) ↔ (tasks = [] ∨ limit ≠ 0))
    ∧ (∀ (limit : Int) (tasks : List ToolCall) (w : List (List ToolCall)),
        egWaves limit tasks = some w →
          w.flatten = tasks
          ∧ (1 ≤ limit → ∀ c ∈ w, c.length ≤ limit.toNat)) := by
  refine ⟨rfl, fun _ => rfl, ?_, ?_, ?_, ?_⟩
  · intro tasks
    cases tasks with
    | nil => simp [egWaves]
    | cons x xs =>
      unfold egWaves
      rw [if_neg (by simp), if_neg (by omega), if_neg (by omega)]
      congr 1
      show chunked 1 (x :: xs) = (x :: xs).map fun t => [t]
      generalize x :: xs = l
      induction l with
      | nil => simp [chunked]
      | cons y ys ih => rw [chunked]; simp [ih]
  · intro limit tasks hneg hne
    unfold egWaves
    rw [if_neg hne, if_pos hneg]
  · intro limit tasks
    constructor
    · rintro ⟨w, hw⟩
      unfold egWaves at hw
      by_cases h1 : tasks = []
      · exact Or.inl h1
      · rw [if_neg h1] at hw
        by_cases h2 : limit < 0
        · exact Or.inr (by omega)
        · rw [if_neg h2] at hw
          by_cases h3 : limit = 0
          · rw [if_pos h3] at hw; cases hw
          · exact Or.inr h3
    · rintro (h | h)
      · exact ⟨[], by simp [egWaves, h]⟩
      · unfold egWaves
        by_cases h1 : tasks = []
        · exact ⟨[], by rw [if_pos h1]⟩
        · rw [if_neg h1]
          by_cases h2 : limit < 0
          · exact ⟨[tasks], by rw [if_pos h2]⟩
          · exact ⟨chunked limit.toNat tasks, by rw [if_neg h2, if_neg h]⟩
  · intro limit tasks w hw
    unfold egWaves at hw
    by_cases h1 : tasks = []
    · rw [if_pos h1] at hw
      cases hw
      subst h1
      exact ⟨rfl, fun _ c hc => absurd hc (List.not_mem_nil c)⟩
    · rw [if_neg h1] at hw
      by_cases h2 : limit < 0
      · rw [if_pos h2] at hw
        cases hw
        exact ⟨by simp, fun hle => absurd h2 (by omega)⟩
      · rw [if_neg h2] at hw
        by_cases h3 : limit = 0
        · rw [if_pos h3] at hw; cases hw
        · rw [if_neg h3] at hw
          cases hw
          refine ⟨chunked_join limit.toNat tasks.length tasks le_rfl, ?_⟩
          intro hle c hc
          exact chunked_size limit.toNat (by omega) tasks.length tasks le_rfl c hc

/-- Witness for the amended C7: the default bound, sequential waves at
bound 1, one unbounded wave at bound -1, and a bound-2 schedule of a
three-call batch covering every call once in order. -/
theorem parallelism_schedule_witness :
    (New "a" []).conf.parallelism = 5
    ∧ egWaves 1 [cLookup, cBad] = some [[cLookup], [cBad]]
    ∧ ((-1 : Int) < 0 ∧ ([cLookup, cBad] : List ToolCall) ≠ []
        ∧ egWaves (-1) [cLookup, cBad] = some [[cLookup, cBad]])
    ∧ egWaves 2 [cLookup, cBad, cPending] = some [[cLookup, cBad], [cPending]]
    ∧ ([[cLookup, cBad], [cPending]] : List (List ToolCall)).flatten =
        [cLookup, cBad, cPending] := by
  have h2 : egWaves 2 [cLookup, cBad, cPending] = some [[cLookup, cBad], [cPending]] := by
    unfold egWaves
    rw [if_neg (by simp), if_neg (by omega), if_neg (by omega)]
    rw [chunked.eq_def]
    simp only [List.take, List.drop]
    rw [chunked.eq_def]
    simp only [List.take, List.drop]
    rw [chunked.eq_def]
  refine ⟨parallelism_schedule.1, ?_, ⟨by omega, by simp, ?_⟩, h2, ?_⟩
  · exact parallelism_schedule.2.2.1 [cLookup, cBad]
  · exact parallelism_schedule.2.2.2.1 (-1) [cLookup, cBad] (by omega) (by simp)
  · exact (parallelism_schedule.2.2.2.2.2 2 [cLookup, cBad, cPending]
      [[cLookup, cBad], [cPending]] h2).1


lemma takeToFirstUser_singleton (m : Message) : takeToFirstUser [m] = [m] := by
  unfold takeToFirstUser
  by_cases hm : isUserMessage m <;> simp [hm, takeToFirstUser]

lemma takeToFirstUser_append (l1 l2 : List Message) :
    takeToFirstUser (l1 ++ l2) =
      if l1.any isUserMessage then takeToFirstUser l1 else l1 ++ takeToFirstUser l2 := by
  induction l1 with
  | nil => simp
  | cons m rest ih =>
    cases hm : isUserMessage m with
    | true => simp [takeToFirstUser, hm]
    | false =>
      simp only [List.cons_append, takeToFirstUser, hm, Bool.false_eq_true,
        if_false, List.any_cons, Bool.false_or, List.append_eq]
      rw [ih]
      by_cases hr : rest.any isUserMessage
      · simp [hr]
      · simp [hr]

lemma takeToFirstUser_of_no_user (l : List Message)
    (h : l.any isUserMessage = false) : takeToFirstUser l = l := by
  induction l with
  | nil => rfl
  | cons m rest ih =>
    simp only [List.any_cons, Bool.or_eq_false_iff] at h
    simp [takeToFirstUser, h.1, ih h.2]

lemma sinceLastUser_cons (m : Message) (rest : List Message) :
    sinceLastUser (m :: rest) =
      if rest.any isUserMessage then sinceLastUser rest else m :: rest := by
  unfold sinceLastUser
  rw [show (m :: rest).reverse = rest.reverse ++ [m] by simp]
  rw [takeToFirstUser_append, List.any_reverse]
  by_cases hr : rest.any isUserMessage
  · simp [hr]
  · simp [hr, takeToFirstUser_singleton]

lemma forgetfulAppendAll_spec : ∀ (msgs stored : List Message),
    forgetfulAppendAll stored msgs =
      if msgs.any isUserMessage then sinceLastUser msgs else stored ++ msgs := by
  intro msgs
  induction msgs with
  | nil => intro stored; simp [forgetfulAppendAll]
  | cons m rest ih =>
    intro stored
    rw [show forgetfulAppendAll stored (m :: rest) =
      forgetfulAppendAll (forgetfulAppend stored m) rest from rfl, ih]
    cases hm : isUserMessage m with
    | true =>
      have hap : forgetfulAppend stored m = [m] := by simp [forgetfulAppend, hm]
      have hany : (m :: rest).any isUserMessage = true := by simp [hm]
      rw [hap, hany, sinceLastUser_cons]
      by_cases hr : rest.any isUserMessage
      · simp [hr]
      · simp [hr]
    | false =>
      have hap : forgetfulAppend stored m = stored ++ [m] := by
        simp [forgetfulAppend, hm]
      have hany : (m :: rest).any isUserMessage = rest.any isUserMessage := by
        simp [hm]
      rw [hap, hany, sinceLastUser_cons]
      by_cases hr : rest.any isUserMessage
      · simp [hr]
      · simp [hr]

/-- **C9.** ForgetfulMemory: appending a UserMessage resets the stored log
before the message is stored, so after any sequence of `Append` calls
starting from the empty log, `List` returns exactly the messages appended
since (and including) the most recent UserMessage, in append order; when
no UserMessage was ever appended it returns all appended messages in
order. -/
theorem forgetful_memory_list (msgs : List Message) :
    forgetfulAppendAll [] msgs = sinceLastUser msgs
    ∧ (∀ (stored : List Message) (content : String),
        forgetfulAppend stored (.user content) = [Message.user content])
    ∧ ((∀ m ∈ msgs, isUserMessage m = false) → forgetfulAppendAll [] msgs = msgs) := by
  refine ⟨?_, ?_, ?_⟩
  · rw [forgetfulAppendAll_spec]
    by_cases h : msgs.any isUserMessage
    · rw [if_pos h]
    · rw [if_neg h]
      unfold sinceLastUser
      rw [takeToFirstUser_of_no_user msgs.reverse (by rw [List.any_reverse]; simpa using h)]
      simp
  · intro stored content
    simp [forgetfulAppend, isUserMessage]
  · intro h
    rw [forgetfulAppendAll_spec,
      if_neg (by simpa using List.any_eq_false.mpr fun x hx => by simp [h x hx])]
    simp

/-- Witness for C9: a log with two UserMessages keeps only the suffix from
the second one; a log with no UserMessage keeps everything. -/
theorem forgetful_memory_list_witness :
    (∀ m ∈ ([Message.assistant [], Message.toolResult "c" "r"] : List Message),
        isUserMessage m = false)
    ∧ forgetfulAppendAll [] [Message.assistant [], Message.toolResult "c" "r"] =
        [Message.assistant [], Message.toolResult "c" "r"]
    ∧ forgetfulAppendAll []
        [Message.user "a", Message.assistant [textBlock "x"],
         Message.user "b", Message.toolResult "c" "r"] =
      sinceLastUser
        [Message.user "a", Message.assistant [textBlock "x"],
         Message.user "b", Message.toolResult "c" "r"]
    ∧ sinceLastUser
        [Message.user "a", Message.assistant [textBlock "x"],
         Message.user "b", Message.toolResult "c" "r"] =
        [Message.user "b", Message.toolResult "c" "r"] := by
  refine ⟨by decide, ?_, ?_, by decide⟩
  · exact (forgetful_memory_list _).2.2 (by decide)
  · exact (forgetful_memory_list _).1

end GoAgent
